import Mathlib

/-!
Verification of the feed-ranking and content-obfuscation core of entropych
(module `entropy`): the content distortion engine (src/distort.go), the
follow-graph distance oracle and follow-edge mutators (src/db.go), and the
feed composer (src/recommend.go), shallowly embedded over explicit store
state and explicit random sources.

Randomness is modelled by passing the draws of the global `math/rand`
source as explicit function arguments: a theorem quantified over every
draw function covers every realizable behaviour of the Go code.
-/

namespace Entropy

/-! ## ContentDistortionEngine (src/distort.go) -/

/-- Modelled from the spec: the constant `MaxDistortionLevel` is referenced
throughout the sources (db.go, db_test.go, cmd/server/main.go) but its
defining declaration is absent from the sources; the spec fixes it at 5. -/
def MaxDistortionLevel : Nat := 5

/-- src/distort.go line 17: `const maxGraphDistance = 6.0`. -/
def maxGraphDistance : ℚ := 6

/-- src/distort.go lines 8-15: `randomContentRune` returns
`rune(0x0020 + mathrand.Intn(0x007F - 0x0020))`. The argument `i` stands for
the raw draw of the random source; reducing it modulo `0x7F - 0x20` makes every
natural number correspond to a legal value of `Intn(0x7F - 0x20)`, whose image
is exactly `[0, 0x7F - 0x20)`. -/
def randomContentRune (i : Nat) : Nat := 0x20 + i % (0x7F - 0x20)

/-- The per-character replacement probability computed by `DistortContent`
(src/distort.go lines 20-27): a distance of 0 short-circuits before `p` is
computed (so the effective probability is 0 there), and otherwise
`p = min(graphDistance / maxGraphDistance, 1.0)`. -/
def pCurve (graphDistance : Nat) : ℚ :=
  if graphDistance = 0 then 0 else min ((graphDistance : ℚ) / maxGraphDistance) 1

/-- src/distort.go lines 19-38, `DistortContent`. The content is the list of
Unicode scalar values of the Go string (the `for _, r := range content` loop).
`floats i` is the value drawn by `mathrand.Float32()` at position `i`, and
`ints i` the raw draw behind `mathrand.Intn` there; a character is kept when
the float draw exceeds `p` and replaced by `randomContentRune` otherwise.
Inside the `else` branch `graphDistance ≠ 0`, so `pCurve graphDistance` is
exactly the `p` computed at line 27. -/
def DistortContent (floats : Nat → ℚ) (ints : Nat → Nat)
    (content : List Nat) (graphDistance : Nat) : List Nat :=
  if graphDistance = 0 then content
  else
    (content.enum).map (fun x =>
      if pCurve graphDistance < floats x.1 then x.2 else randomContentRune (ints x.1))

/-! ## Follow store (src/schema.sql, src/db.go)

The `user_follow` table is modelled as a list of rows; the primary key on
`(user_id, followed_user_id)` of src/schema.sql is expressed, where a claim
needs it, as the hypothesis that `edgeKeys` of the table has no duplicates. -/

structure FollowEdge where
  userId : ℤ
  followedUserId : ℤ
  followedAt : ℤ
deriving DecidableEq

abbrev FollowTable := List FollowEdge

/-- The primary-key projection of the `user_follow` table. -/
def edgeKeys (t : FollowTable) : List (ℤ × ℤ) :=
  t.map (fun e => (e.userId, e.followedUserId))

/-- src/db.go lines 491-502, `IsFollowing`:
`select 1 from user_follow where user_id = ? and followed_user_id = ?`. -/
def IsFollowing (t : FollowTable) (userID followedUserID : ℤ) : Bool :=
  t.any (fun e => e.userId == userID && e.followedUserId == followedUserID)

/-- src/db.go lines 475-484, `FollowUser`: reject a self-follow with an error,
otherwise `insert into user_follow ... on conflict do nothing` (the conflict
target being the primary key on `(user_id, followed_user_id)`). -/
def FollowUser (t : FollowTable) (userID followedUserID now : ℤ) :
    Except String FollowTable :=
  if userID = followedUserID then
    Except.error s!"userID {userID} cannot follow itself"
  else if IsFollowing t userID followedUserID then Except.ok t
  else Except.ok (t ++ [⟨userID, followedUserID, now⟩])

/-! ## GraphDistanceOracle (src/db.go lines 142-227)

The SQL of `GetDistanceFromUser` builds four CTEs `follows`, `follows2`,
`follows3`, `follows4`; each is embedded below as a list of user ids in row
order, with `select distinct` rendered as `List.dedup`. -/

/-- The CTE `follows` (hop 1):
`select followed_user_id as user_id, 1 as distance from user_follow where user_id = :userID`.
Note that, unlike the later hops, it has no `!= :userID` clause. -/
def follows1 (t : FollowTable) (userID : ℤ) : List ℤ :=
  (t.filter (fun e => decide (e.userId = userID))).map (fun e => e.followedUserId)

/-- The CTE `follows2` (hop 2): the followed users of `follows`, excluding
`follows` and the viewer, made distinct. -/
def follows2 (t : FollowTable) (userID : ℤ) : List ℤ :=
  (((t.filter (fun e => decide (e.userId ∈ follows1 t userID))).map
      (fun e => e.followedUserId)).filter
    (fun u => !decide (u ∈ follows1 t userID) && !decide (u = userID))).dedup

/-- The CTE `follows3` (hop 3): the followed users of `follows2`, excluding
`follows`, `follows2` and the viewer, made distinct. -/
def follows3 (t : FollowTable) (userID : ℤ) : List ℤ :=
  (((t.filter (fun e => decide (e.userId ∈ follows2 t userID))).map
      (fun e => e.followedUserId)).filter
    (fun u => !decide (u ∈ follows1 t userID) && !decide (u ∈ follows2 t userID)
      && !decide (u = userID))).dedup

/-- The CTE `follows4` (hop 4): the followed users of `follows3`, excluding
`follows`, `follows2`, `follows3` and the viewer, made distinct. -/
def follows4 (t : FollowTable) (userID : ℤ) : List ℤ :=
  (((t.filter (fun e => decide (e.userId ∈ follows3 t userID))).map
      (fun e => e.followedUserId)).filter
    (fun u => !decide (u ∈ follows1 t userID) && !decide (u ∈ follows2 t userID)
      && !decide (u ∈ follows3 t userID) && !decide (u = userID))).dedup

/-- The row stream produced by the final `union all` of the query: each hop
level filtered to the requested ids (`where user_id in (select ... from other_users)`),
paired with its distance. -/
def distanceRows (t : FollowTable) (userID : ℤ) (otherUserIDs : List ℤ) :
    List (ℤ × Nat) :=
  ((follows1 t userID).filter (fun u => decide (u ∈ otherUserIDs))).map (fun u => (u, 1)) ++
  ((follows2 t userID).filter (fun u => decide (u ∈ otherUserIDs))).map (fun u => (u, 2)) ++
  ((follows3 t userID).filter (fun u => decide (u ∈ otherUserIDs))).map (fun u => (u, 3)) ++
  ((follows4 t userID).filter (fun u => decide (u ∈ otherUserIDs))).map (fun u => (u, 4))

/-- The `collect` closure of `GetDistanceFromUser` (src/db.go lines 204-211):
fold the rows into the result, failing when a user id is seen twice. -/
def collectRows (acc : List (ℤ × Nat)) : List (ℤ × Nat) → Except String (List (ℤ × Nat))
  | [] => Except.ok acc
  | (u, d) :: rest =>
    if (acc.lookup u).isSome then Except.error s!"user ID {u} returned more than once"
    else collectRows (acc ++ [(u, d)]) rest

/-- One step of the final loop of `GetDistanceFromUser` (src/db.go lines
220-225): a requested id absent from the result is assigned
`MaxDistortionLevel`. -/
def capStep (result : List (ℤ × Nat)) (u : ℤ) : List (ℤ × Nat) :=
  if (result.lookup u).isSome then result else result ++ [(u, MaxDistortionLevel)]

/-- src/db.go lines 142-227, `GetDistanceFromUser`: run the distance query,
collect its rows (erroring on a duplicate id), then cap every unseen requested
id at `MaxDistortionLevel`. The returned association list is read through
`List.lookup`, matching the Go map. -/
def GetDistanceFromUser (t : FollowTable) (userID : ℤ) (otherUserIDs : List ℤ) :
    Except String (List (ℤ × Nat)) :=
  match collectRows [] (distanceRows t userID otherUserIDs) with
  | Except.error e => Except.error e
  | Except.ok result => Except.ok (otherUserIDs.foldl capStep result)

/-- `GetDistanceFromUser` together with the number of store queries it
executes. The Go function marshals the id list and calls `exec` exactly once
(src/db.go lines 199-216), unconditionally: there is no early return for an
empty `otherUserIDs`, so the count is 1 on every path that reaches the query. -/
def GetDistanceFromUserTraced (t : FollowTable) (userID : ℤ) (otherUserIDs : List ℤ) :
    Except String (List (ℤ × Nat)) × Nat :=
  (GetDistanceFromUser t userID otherUserIDs, 1)

/-- One forward hop over the follow relation from a set of users: the ends of
all edges starting in `s`. Used to phrase reachability by paths. -/
def stepFollows (t : FollowTable) (s : List ℤ) : List ℤ :=
  (t.filter (fun e => decide (e.userId ∈ s))).map (fun e => e.followedUserId)

/-- The users reachable from `userID` by a forward walk of exactly `n` hops. -/
def reach (t : FollowTable) (userID : ℤ) : Nat → List ℤ
  | 0 => [userID]
  | n + 1 => stepFollows t (reach t userID n)

/-! ## Posts, PostDecorator and FeedComposer (src/db.go, src/recommend.go)

The `Post` structure keeps the fields the feed logic reads or writes
(author id, creation time, content, distortion level); the display-only
columns (user name, display name) are carried along by the Go code but never
consulted by it. -/

structure Post where
  postId : ℤ
  userId : ℤ
  createdAt : ℤ
  content : List Nat
  distanceFromUser : Nat
deriving DecidableEq

/-- The descending `created_at` order used by the post queries
(`order by created_at desc`) and by the sort in src/recommend.go lines 42-44. -/
def postLeDesc (a b : Post) : Bool := decide (b.createdAt ≤ a.createdAt)

/-- src/db.go lines 229-252, `GetRecentPosts`:
`select ... from post where post.created_at < ? order by created_at desc limit ?`. -/
def GetRecentPosts (postTable : List Post) (before : ℤ) (limit : Nat) : List Post :=
  ((postTable.filter (fun p => decide (p.createdAt < before))).mergeSort postLeDesc).take limit

/-- src/db.go lines 254-292, `GetRecentPostsFromFollowedUsers`: recent posts
whose author is followed by `userID` or is `userID` itself. -/
def GetRecentPostsFromFollowedUsers (ft : FollowTable) (postTable : List Post)
    (userID : ℤ) (before : ℤ) (limit : Nat) : List Post :=
  ((postTable.filter (fun p =>
      (decide (p.userId ∈ follows1 ft userID) || decide (p.userId = userID))
        && decide (p.createdAt < before))).mergeSort postLeDesc).take limit

/-- src/db.go lines 295-332, `GetRecentPostsFromRandos`: recent posts whose
author is neither followed by `userID` nor `userID` itself. -/
def GetRecentPostsFromRandos (ft : FollowTable) (postTable : List Post)
    (userID : ℤ) (before : ℤ) (limit : Nat) : List Post :=
  ((postTable.filter (fun p =>
      decide (p.createdAt < before)
        && !decide (p.userId ∈ follows1 ft userID)
        && !decide (p.userId = userID))).mergeSort postLeDesc).take limit

/-- The draw loop of src/recommend.go lines 22-41: up to `limit` rounds, each
consuming the head of one of the two streams; when both are nonempty the
followed stream is taken when `mathrand.Float32() > 0.4`, whose draw at the
round with `n` rounds remaining is modelled by `draw n`. -/
def drawLoop (draw : Nat → ℚ) : Nat → List Post → List Post → List Post → List Post
  | 0, acc, _, _ => acc
  | _ + 1, acc, [], [] => acc
  | n + 1, acc, [], c :: cs => drawLoop draw n (acc ++ [c]) [] cs
  | n + 1, acc, f :: fs, [] => drawLoop draw n (acc ++ [f]) fs []
  | n + 1, acc, f :: fs, c :: cs =>
    if (4 : ℚ) / 10 < draw n then drawLoop draw n (acc ++ [f]) fs (c :: cs)
    else drawLoop draw n (acc ++ [c]) (f :: fs) cs

/-- src/recommend.go lines 11-46, `getPostsForLoggedInUser`: fetch the two
streams, interleave them with `drawLoop`, and sort the result by `createdAt`
descending. -/
def getPostsForLoggedInUser (draw : Nat → ℚ) (ft : FollowTable) (postTable : List Post)
    (userID : ℤ) (before : ℤ) (limit : Nat) : List Post :=
  (drawLoop draw limit []
      (GetRecentPostsFromFollowedUsers ft postTable userID before limit)
      (GetRecentPostsFromRandos ft postTable userID before limit)).mergeSort postLeDesc

/-- src/db.go lines 552-585, `DistortPostsForUser` (also
src/unnamed/part_009 lines 844-877, `distortPostsForUser`): a nil viewer gets
every post distorted at `MaxDistortionLevel`; a logged-in viewer gets each
post distorted at the graph distance of its author, with the viewer posts
skipped. `floats i` and `ints i` are the random draws consumed while
distorting the post at index `i`. The Go map read `distances[posts[i].UserID]`
yields the zero value 0 when the key is absent, hence `Option.getD 0`. -/
def distortPostsForUser (floats : Nat → Nat → ℚ) (ints : Nat → Nat → Nat)
    (ft : FollowTable) (user : Option ℤ) (posts : List Post) :
    Except String (List Post) :=
  match user with
  | none =>
    Except.ok ((posts.enum).map (fun x =>
      { x.2 with
        content := DistortContent (floats x.1) (ints x.1) x.2.content MaxDistortionLevel
        distanceFromUser := MaxDistortionLevel }))
  | some uid =>
    match GetDistanceFromUser ft uid
        (((posts.filter (fun p => p.userId != uid)).map (fun p => p.userId)).dedup) with
    | Except.error e => Except.error e
    | Except.ok distances =>
      Except.ok ((posts.enum).map (fun x =>
        if x.2.userId == uid then x.2
        else
          { x.2 with
            content := DistortContent (floats x.1) (ints x.1) x.2.content
              ((distances.lookup x.2.userId).getD 0)
            distanceFromUser := (distances.lookup x.2.userId).getD 0 }))

/-- src/unnamed/part_009 lines 881-898, `DecoratePosts`: an empty batch is
returned untouched; otherwise the posts are decorated. The reaction-tally,
reply-count and parent-linkage steps read and write only fields not modelled
here (tallies, counts, parent metadata) and leave the author id, creation
time and content of every post unchanged, so the distortion step is the only
one visible on the modelled fields. -/
def DecoratePosts (floats : Nat → Nat → ℚ) (ints : Nat → Nat → Nat)
    (ft : FollowTable) (user : Option ℤ) (posts : List Post) :
    Except String (List Post) :=
  if posts.isEmpty then Except.ok posts
  else distortPostsForUser floats ints ft user posts

/-- src/recommend.go lines 49-64, `GetRecommendedPosts`: the recent posts for
an anonymous viewer, or the interleaved streams for a logged-in viewer, then
decorated. -/
def GetRecommendedPosts (draw : Nat → ℚ) (floats : Nat → Nat → ℚ)
    (ints : Nat → Nat → Nat) (ft : FollowTable) (postTable : List Post)
    (user : Option ℤ) (before : ℤ) (limit : Nat) : Except String (List Post) :=
  DecoratePosts floats ints ft user
    (match user with
     | none => GetRecentPosts postTable before limit
     | some uid => getPostsForLoggedInUser draw ft postTable uid before limit)

end Entropy

/-! Theorems for the distortion engine. -/

namespace Entropy

/-- C3: for every string and every state of the random source, distorting at
distance 0 returns the content unchanged. -/
theorem distortContent_zero_id (floats : Nat → ℚ) (ints : Nat → Nat)
    (content : List Nat) :
    DistortContent floats ints content 0 = content := by
  simp [DistortContent]

/-- C2 counterexample: the replacement probability at `MaxDistortionLevel = 5`
is `min (5/6) 1 = 5/6`, not `1.0` as the claim states. -/
theorem pCurve_at_max_ne_one : pCurve MaxDistortionLevel ≠ 1 := by
  unfold pCurve MaxDistortionLevel maxGraphDistance
  norm_num

/-- C2 amended: the curve `p(distance) = min(distance / maxGraphDistance, 1)`
(0 at distance 0) is monotone non-decreasing, zero exactly at distance 0, at
least 1/100 at distance 1, and saturates at 1.0 only once the distance reaches
`maxGraphDistance = 6`; at `MaxDistortionLevel = 5` it is 5/6, not 1. -/
theorem pCurve_spec :
    (∀ d e : Nat, d ≤ e → pCurve d ≤ pCurve e) ∧
    (∀ d : Nat, pCurve d = 0 ↔ d = 0) ∧
    ((1 : ℚ) / 100 ≤ pCurve 1) ∧
    (∀ d : Nat, 6 ≤ d → pCurve d = 1) ∧
    pCurve MaxDistortionLevel = 5 / 6 := by
  have hnonneg : ∀ d : Nat, 0 ≤ pCurve d := by
    intro d
    unfold pCurve
    split
    · exact le_refl 0
    · refine le_min ?_ zero_le_one
      unfold maxGraphDistance
      positivity
  refine ⟨?_, ?_, ?_, ?_, ?_⟩
  · intro d e h
    by_cases hd : d = 0
    · subst hd
      simpa [pCurve] using hnonneg e
    · have he : e ≠ 0 := by omega
      unfold pCurve
      rw [if_neg hd, if_neg he]
      have : (d : ℚ) ≤ (e : ℚ) := by exact_mod_cast h
      have hdiv : (d : ℚ) / maxGraphDistance ≤ (e : ℚ) / maxGraphDistance := by
        unfold maxGraphDistance
        gcongr
      exact min_le_min hdiv le_rfl
  · intro d
    constructor
    · intro h
      by_contra hd
      have h1 : (1 : ℚ) ≤ (d : ℚ) := by exact_mod_cast Nat.one_le_iff_ne_zero.2 hd
      have hpos : 0 < min ((d : ℚ) / maxGraphDistance) 1 := by
        apply lt_min
        · unfold maxGraphDistance
          apply div_pos (by linarith) (by norm_num)
        · exact one_pos
      rw [pCurve, if_neg hd] at h
      exact absurd h (ne_of_gt hpos)
    · intro h
      simp [pCurve, h]
  · unfold pCurve maxGraphDistance
    norm_num
  · intro d hd
    have hne : d ≠ 0 := by omega
    rw [pCurve, if_neg hne]
    have h6 : (6 : ℚ) ≤ (d : ℚ) := by exact_mod_cast hd
    have : (1 : ℚ) ≤ (d : ℚ) / maxGraphDistance := by
      unfold maxGraphDistance
      rw [le_div_iff₀ (by norm_num)]
      linarith
    exact min_eq_right this
  · unfold pCurve MaxDistortionLevel maxGraphDistance
    norm_num

/-- Witness for `pCurve_spec` at concrete distances. -/
theorem pCurve_spec_witness :
    pCurve 2 ≤ pCurve 3 ∧ pCurve 6 = 1 :=
  ⟨pCurve_spec.1 2 3 (by norm_num), pCurve_spec.2.2.2.1 6 (le_refl 6)⟩

/-- C4 counterexample: no draw of `randomContentRune` ever lies in the symbol
zone 0x2580-0x27BF; every replacement character comes from the Basic Latin
range, so the claimed 0.3-probability symbol-zone draw does not exist. -/
theorem randomContentRune_no_symbol_zone :
    ¬ ∃ i : Nat, 0x2580 ≤ randomContentRune i ∧ randomContentRune i ≤ 0x27BF := by
  rintro ⟨i, h1, -⟩
  have hlt : i % (0x7F - 0x20) < 0x7F - 0x20 := Nat.mod_lt _ (by norm_num)
  unfold randomContentRune at h1
  omega

/-- C4 amended: every character of a distorted string is either a character of
the original content or a replacement drawn from the printable Basic Latin
range 0x20-0x7E inclusive (with probability 1, not 0.7); the symbol zone is
never drawn from. -/
theorem distortContent_chars_spec (floats : Nat → ℚ) (ints : Nat → Nat)
    (content : List Nat) (graphDistance : Nat) (r : Nat)
    (hr : r ∈ DistortContent floats ints content graphDistance) :
    r ∈ content ∨ (0x20 ≤ r ∧ r ≤ 0x7E) := by
  unfold DistortContent at hr
  split at hr
  · exact Or.inl hr
  · obtain ⟨x, hx, hval⟩ := List.mem_map.1 hr
    have hmem : x.2 ∈ content := by
      have := List.mem_map_of_mem Prod.snd hx
      rwa [List.enum_map_snd] at this
    by_cases hc : pCurve graphDistance < floats x.1
    · rw [if_pos hc] at hval
      exact Or.inl (hval ▸ hmem)
    · rw [if_neg hc] at hval
      right
      subst hval
      have hlt : ints x.1 % (0x7F - 0x20) < 0x7F - 0x20 := Nat.mod_lt _ (by norm_num)
      unfold randomContentRune
      omega

/-- Witness for `distortContent_chars_spec` at a concrete input. -/
theorem distortContent_chars_spec_witness :
    65 ∈ [65] ∨ (0x20 ≤ 65 ∧ (65 : Nat) ≤ 0x7E) :=
  distortContent_chars_spec (fun _ => 1) (fun _ => 0) [65] 0 65 (by decide)

/-! Theorems for the follow-edge mutators. -/

/-- `IsFollowing` holds exactly when the pair is a key of the table. -/
theorem isFollowing_iff_mem (t : FollowTable) (V T : ℤ) :
    IsFollowing t V T = true ↔ (V, T) ∈ edgeKeys t := by
  unfold IsFollowing edgeKeys
  rw [List.any_eq_true]
  constructor
  · rintro ⟨e, he, hb⟩
    simp only [Bool.and_eq_true, beq_iff_eq] at hb
    exact List.mem_map.2 ⟨e, he, by rw [hb.1, hb.2]⟩
  · intro h
    obtain ⟨e, he, heq⟩ := List.mem_map.1 h
    refine ⟨e, he, ?_⟩
    rw [Prod.ext_iff] at heq
    simp only [Bool.and_eq_true, beq_iff_eq]
    exact ⟨heq.1, heq.2⟩

/-- C7: self-follows always error (for every table and every id), and for
V ≠ T the insertion is idempotent: a second call on the resulting table
succeeds without changing it, `IsFollowing` holds afterwards, and no
duplicate row is created (starting from a table satisfying the primary-key
bound, the edge is present exactly once). -/
theorem followUser_spec :
    (∀ (t : FollowTable) (V now : ℤ), ∃ e, FollowUser t V V now = Except.error e) ∧
    (∀ (t t1 : FollowTable) (V T now now2 : ℤ), V ≠ T →
      FollowUser t V T now = Except.ok t1 →
      FollowUser t1 V T now2 = Except.ok t1 ∧
      IsFollowing t1 V T = true ∧
      ((edgeKeys t).count (V, T) ≤ 1 → (edgeKeys t1).count (V, T) = 1)) := by
  constructor
  · intro t V now
    exact ⟨_, by rw [FollowUser, if_pos rfl]⟩
  · intro t t1 V T now now2 hne h
    rw [FollowUser, if_neg hne] at h
    by_cases hF : IsFollowing t V T = true
    · rw [if_pos hF] at h
      obtain rfl : t = t1 := by injection h
      have hm : (V, T) ∈ edgeKeys t := (isFollowing_iff_mem t V T).1 hF
      refine ⟨by rw [FollowUser, if_neg hne, if_pos hF], hF, ?_⟩
      intro hle
      have := List.count_pos_iff.2 hm
      omega
    · rw [if_neg hF] at h
      obtain rfl : t ++ [⟨V, T, now⟩] = t1 := by injection h
      have hF1 : IsFollowing (t ++ [⟨V, T, now⟩]) V T = true := by
        apply (isFollowing_iff_mem _ V T).2
        unfold edgeKeys
        rw [List.map_append]
        exact List.mem_append_right _ (by simp)
      refine ⟨by rw [FollowUser, if_neg hne, if_pos hF1], hF1, ?_⟩
      intro _
      have hnm : (V, T) ∉ edgeKeys t := fun hm =>
        hF ((isFollowing_iff_mem t V T).2 hm)
      have hz : (edgeKeys t).count (V, T) = 0 := List.count_eq_zero.2 hnm
      unfold edgeKeys at hz ⊢
      rw [List.map_append, List.count_append, hz]
      simp

/-- Witness for `followUser_spec` at a concrete table. -/
theorem followUser_spec_witness :
    FollowUser [⟨1, 2, 0⟩] 1 2 3 = Except.ok [⟨1, 2, 0⟩] ∧
    IsFollowing [⟨1, 2, 0⟩] 1 2 = true ∧
    ((edgeKeys ([] : FollowTable)).count (1, 2) ≤ 1 →
      (edgeKeys [⟨1, 2, 0⟩]).count (1, 2) = 1) :=
  followUser_spec.2 [] [⟨1, 2, 0⟩] 1 2 0 3 (by decide) (by rfl)

/-! Lemmas about association-list lookup (the Go result map is read only
through key lookups, so the embedding reads the collected rows the same way). -/

theorem lookup_isSome_iff (m : List (ℤ × Nat)) (u : ℤ) :
    (m.lookup u).isSome = true ↔ u ∈ m.map Prod.fst := by
  induction m with
  | nil => simp
  | cons x rest ih =>
    obtain ⟨k, v⟩ := x
    by_cases h : u = k
    · subst h
      simp [List.lookup_cons]
    · have hbeq : (u == k) = false := by simp [h]
      simp only [List.lookup_cons, hbeq, List.map_cons, List.mem_cons]
      rw [ih]
      simp [h]

theorem lookup_eq_none_of_not_mem {m : List (ℤ × Nat)} {u : ℤ}
    (h : u ∉ m.map Prod.fst) : m.lookup u = none := by
  cases hl : m.lookup u with
  | none => rfl
  | some d => exact absurd ((lookup_isSome_iff m u).1 (by simp [hl])) h

theorem lookup_append_some {m : List (ℤ × Nat)} {u : ℤ} {d : Nat}
    (l2 : List (ℤ × Nat)) (h : m.lookup u = some d) :
    (m ++ l2).lookup u = some d := by
  induction m with
  | nil => simp at h
  | cons x rest ih =>
    obtain ⟨k, v⟩ := x
    by_cases hk : u = k
    · subst hk
      simpa [List.lookup_cons] using h
    · have hbeq : (u == k) = false := by simp [hk]
      simp only [List.cons_append, List.lookup_cons, hbeq] at h ⊢
      exact ih h

theorem lookup_append_none {m : List (ℤ × Nat)} {u : ℤ}
    (l2 : List (ℤ × Nat)) (h : m.lookup u = none) :
    (m ++ l2).lookup u = l2.lookup u := by
  induction m with
  | nil => simp
  | cons x rest ih =>
    obtain ⟨k, v⟩ := x
    by_cases hk : u = k
    · subst hk
      rw [List.lookup_cons] at h
      simp at h
    · have hbeq : (u == k) = false := by simp [hk]
      simp only [List.cons_append, List.lookup_cons, hbeq] at h ⊢
      exact ih h

/-! Lemmas about the row-collecting closure. -/

/-- A successful collect returns exactly the accumulated rows followed by the
remaining rows: no row is dropped or rewritten. -/
theorem collectRows_ok_eq (rows : List (ℤ × Nat)) :
    ∀ acc m : List (ℤ × Nat), collectRows acc rows = Except.ok m → m = acc ++ rows := by
  induction rows with
  | nil =>
    intro acc m h
    rw [collectRows] at h
    injection h with h
    simp [h.symm]
  | cons x rest ih =>
    intro acc m h
    obtain ⟨u, d⟩ := x
    rw [collectRows] at h
    split at h
    · exact absurd h (by simp)
    · have := ih (acc ++ [(u, d)]) m h
      simpa using this

/-- When the row keys (beyond the accumulator) are duplicate-free, collecting
succeeds. -/
theorem collectRows_ok_of_nodup (rows : List (ℤ × Nat)) :
    ∀ acc : List (ℤ × Nat), ((acc ++ rows).map Prod.fst).Nodup →
      collectRows acc rows = Except.ok (acc ++ rows) := by
  induction rows with
  | nil =>
    intro acc _
    rw [collectRows]
    simp
  | cons x rest ih =>
    intro acc h
    obtain ⟨u, d⟩ := x
    have hu : u ∉ acc.map Prod.fst := by
      intro hmem
      rw [List.map_append] at h
      have hdisj := (List.nodup_append.1 h).2.2
      exact List.disjoint_left.1 hdisj hmem (by simp)
    rw [collectRows, if_neg (by simp only [lookup_isSome_iff]; exact hu)]
    have := ih (acc ++ [(u, d)]) (by simpa using h)
    simpa using this

/-- A duplicated key in the row stream makes the collect fail with an error. -/
theorem collectRows_error_of_dup (rows : List (ℤ × Nat)) :
    ∀ acc : List (ℤ × Nat), (acc.map Prod.fst).Nodup →
      ¬ ((acc ++ rows).map Prod.fst).Nodup →
      ∃ e, collectRows acc rows = Except.error e := by
  induction rows with
  | nil =>
    intro acc hacc hdup
    exact absurd (by simpa using hacc) hdup
  | cons x rest ih =>
    intro acc hacc hdup
    obtain ⟨u, d⟩ := x
    by_cases hu : (acc.lookup u).isSome = true
    · exact ⟨_, by rw [collectRows, if_pos hu]⟩
    · have hu2 : u ∉ acc.map Prod.fst := fun hm => hu ((lookup_isSome_iff acc u).2 hm)
      have hacc2 : ((acc ++ [(u, d)]).map Prod.fst).Nodup := by
        rw [List.map_append, List.nodup_append]
        refine ⟨hacc, by simp, ?_⟩
        intro a ha hau
        simp at hau
        exact hu2 (hau ▸ ha)
      obtain ⟨e, he⟩ := ih (acc ++ [(u, d)]) hacc2 (by
        intro hn
        exact hdup (by simpa using hn))
      exact ⟨e, by rw [collectRows, if_neg hu]; exact he⟩

/-! Lemmas about the hop frontiers. -/

/-- Under the primary key on `(user_id, followed_user_id)`, the hop-1
frontier has no duplicates: all its rows share the first key component. -/
theorem follows1_nodup (t : FollowTable) (V : ℤ) (h : (edgeKeys t).Nodup) :
    (follows1 t V).Nodup := by
  have hsub : ((t.filter (fun e => decide (e.userId = V))).map
      (fun e => (e.userId, e.followedUserId))).Nodup := by
    unfold edgeKeys at h
    exact ((List.filter_sublist t).map _).nodup h
  have hl : (t.filter (fun e => decide (e.userId = V))).Nodup :=
    List.Nodup.of_map _ hsub
  unfold follows1
  refine List.Nodup.map_on ?_ hl
  intro x hx y hy hxy
  have hxV : x.userId = V := by simpa using (List.mem_filter.1 hx).2
  have hyV : y.userId = V := by simpa using (List.mem_filter.1 hy).2
  refine List.inj_on_of_nodup_map hsub hx hy ?_
  rw [hxV, hyV, hxy]

theorem follows2_nodup (t : FollowTable) (V : ℤ) : (follows2 t V).Nodup := by
  unfold follows2
  exact List.nodup_dedup _

theorem follows3_nodup (t : FollowTable) (V : ℤ) : (follows3 t V).Nodup := by
  unfold follows3
  exact List.nodup_dedup _

theorem follows4_nodup (t : FollowTable) (V : ℤ) : (follows4 t V).Nodup := by
  unfold follows4
  exact List.nodup_dedup _

/-- The hop-2 frontier excludes hop 1 and the viewer. -/
theorem follows2_excl {t : FollowTable} {V u : ℤ} (h : u ∈ follows2 t V) :
    u ∉ follows1 t V ∧ u ≠ V := by
  unfold follows2 at h
  rw [List.mem_dedup, List.mem_filter] at h
  have hpred := h.2
  simp only [Bool.and_eq_true, Bool.not_eq_true', decide_eq_false_iff_not] at hpred
  exact hpred

/-- The hop-3 frontier excludes hops 1-2 and the viewer. -/
theorem follows3_excl {t : FollowTable} {V u : ℤ} (h : u ∈ follows3 t V) :
    u ∉ follows1 t V ∧ u ∉ follows2 t V ∧ u ≠ V := by
  unfold follows3 at h
  rw [List.mem_dedup, List.mem_filter] at h
  have hpred := h.2
  simp only [Bool.and_eq_true, Bool.not_eq_true', decide_eq_false_iff_not] at hpred
  exact ⟨hpred.1.1, hpred.1.2, hpred.2⟩

/-- The hop-4 frontier excludes hops 1-3 and the viewer. -/
theorem follows4_excl {t : FollowTable} {V u : ℤ} (h : u ∈ follows4 t V) :
    u ∉ follows1 t V ∧ u ∉ follows2 t V ∧ u ∉ follows3 t V ∧ u ≠ V := by
  unfold follows4 at h
  rw [List.mem_dedup, List.mem_filter] at h
  have hpred := h.2
  simp only [Bool.and_eq_true, Bool.not_eq_true', decide_eq_false_iff_not] at hpred
  exact ⟨hpred.1.1.1, hpred.1.1.2, hpred.1.2, hpred.2⟩

theorem mem_stepFollows {t : FollowTable} {s : List ℤ} {u : ℤ} :
    u ∈ stepFollows t s ↔ ∃ e, e ∈ t ∧ e.userId ∈ s ∧ e.followedUserId = u := by
  unfold stepFollows
  constructor
  · intro hm
    obtain ⟨e, he, heq⟩ := List.mem_map.1 hm
    have hf := List.mem_filter.1 he
    exact ⟨e, hf.1, by simpa using hf.2, heq⟩
  · rintro ⟨e, he, hs, heq⟩
    exact List.mem_map.2 ⟨e, List.mem_filter.2 ⟨he, by simpa using hs⟩, heq⟩

theorem stepFollows_mono {t : FollowTable} {s s2 : List ℤ} (h : s ⊆ s2) :
    stepFollows t s ⊆ stepFollows t s2 := by
  intro u hu
  obtain ⟨e, he, hs, heq⟩ := mem_stepFollows.1 hu
  exact mem_stepFollows.2 ⟨e, he, h hs, heq⟩

/-- Everything in the hop-1 frontier is reachable in exactly one hop. -/
theorem follows1_subset_reach (t : FollowTable) (V : ℤ) :
    follows1 t V ⊆ reach t V 1 := by
  intro u hu
  unfold follows1 at hu
  obtain ⟨e, he, heq⟩ := List.mem_map.1 hu
  have hf := List.mem_filter.1 he
  have hV : e.userId = V := by simpa using hf.2
  show u ∈ stepFollows t (reach t V 0)
  refine mem_stepFollows.2 ⟨e, hf.1, ?_, heq⟩
  simp [reach, hV]

theorem follows2_subset_reach (t : FollowTable) (V : ℤ) :
    follows2 t V ⊆ reach t V 2 := by
  intro u hu
  unfold follows2 at hu
  rw [List.mem_dedup, List.mem_filter] at hu
  obtain ⟨e, he, heq⟩ := List.mem_map.1 hu.1
  have hf := List.mem_filter.1 he
  show u ∈ stepFollows t (reach t V 1)
  refine stepFollows_mono (follows1_subset_reach t V) ?_
  exact mem_stepFollows.2 ⟨e, hf.1, by simpa using hf.2, heq⟩

theorem follows3_subset_reach (t : FollowTable) (V : ℤ) :
    follows3 t V ⊆ reach t V 3 := by
  intro u hu
  unfold follows3 at hu
  rw [List.mem_dedup, List.mem_filter] at hu
  obtain ⟨e, he, heq⟩ := List.mem_map.1 hu.1
  have hf := List.mem_filter.1 he
  show u ∈ stepFollows t (reach t V 2)
  refine stepFollows_mono (follows2_subset_reach t V) ?_
  exact mem_stepFollows.2 ⟨e, hf.1, by simpa using hf.2, heq⟩

theorem follows4_subset_reach (t : FollowTable) (V : ℤ) :
    follows4 t V ⊆ reach t V 4 := by
  intro u hu
  unfold follows4 at hu
  rw [List.mem_dedup, List.mem_filter] at hu
  obtain ⟨e, he, heq⟩ := List.mem_map.1 hu.1
  have hf := List.mem_filter.1 he
  show u ∈ stepFollows t (reach t V 3)
  refine stepFollows_mono (follows3_subset_reach t V) ?_
  exact mem_stepFollows.2 ⟨e, hf.1, by simpa using hf.2, heq⟩

/-! Lemmas about the capping loop. -/

theorem capStep_keys_sub {m : List (ℤ × Nat)} {a u : ℤ}
    (h : u ∈ m.map Prod.fst) : u ∈ (capStep m a).map Prod.fst := by
  rw [capStep]
  split
  · exact h
  · rw [List.map_append]
    exact List.mem_append_left _ h

theorem capFold_keys_sub (ts : List ℤ) : ∀ (m : List (ℤ × Nat)) (u : ℤ),
    u ∈ m.map Prod.fst → u ∈ (ts.foldl capStep m).map Prod.fst := by
  induction ts with
  | nil => intro m u h; simpa using h
  | cons a rest ih => intro m u h; exact ih _ u (capStep_keys_sub h)

/-- Every requested id ends up among the keys of the capped result. -/
theorem capFold_mem_keys (ts : List ℤ) : ∀ (m : List (ℤ × Nat)) (u : ℤ),
    u ∈ ts → u ∈ (ts.foldl capStep m).map Prod.fst := by
  induction ts with
  | nil => intro m u h; simp at h
  | cons a rest ih =>
    intro m u h
    rcases List.mem_cons.1 h with rfl | h2
    · have hstep : u ∈ (capStep m u).map Prod.fst := by
        rw [capStep]
        split
        · next hs => exact (lookup_isSome_iff m u).1 hs
        · rw [List.map_append]
          exact List.mem_append_right _ (by simp)
      rw [List.foldl_cons]
      exact capFold_keys_sub rest _ u hstep
    · exact ih _ u h2

/-- The capping loop preserves duplicate-freeness of the keys. -/
theorem capFold_keys_nodup (ts : List ℤ) : ∀ m : List (ℤ × Nat),
    (m.map Prod.fst).Nodup → ((ts.foldl capStep m).map Prod.fst).Nodup := by
  induction ts with
  | nil => intro m h; simpa using h
  | cons a rest ih =>
    intro m h
    refine ih _ ?_
    unfold capStep
    split
    · exact h
    · next hs =>
      rw [List.map_append, List.nodup_append]
      refine ⟨h, by simp, ?_⟩
      intro x hx hx2
      simp at hx2
      subst hx2
      exact hs ((lookup_isSome_iff m x).2 hx)

/-- The capping loop never rewrites an entry that is already present. -/
theorem capFold_lookup_some (ts : List ℤ) : ∀ (m : List (ℤ × Nat)) (u : ℤ) (d : Nat),
    m.lookup u = some d → (ts.foldl capStep m).lookup u = some d := by
  induction ts with
  | nil => intro m u d h; simpa using h
  | cons a rest ih =>
    intro m u d h
    refine ih _ u d ?_
    unfold capStep
    split
    · exact h
    · exact lookup_append_some _ h

/-- A requested id that is absent from the collected rows is assigned exactly
the capped distance. -/
theorem capFold_lookup_cap (ts : List ℤ) : ∀ (m : List (ℤ × Nat)) (u : ℤ),
    m.lookup u = none → u ∈ ts →
    (ts.foldl capStep m).lookup u = some MaxDistortionLevel := by
  induction ts with
  | nil => intro m u _ h; simp at h
  | cons a rest ih =>
    intro m u hn h
    by_cases hu : u = a
    · subst hu
      have hstep : (capStep m u).lookup u = some MaxDistortionLevel := by
        unfold capStep
        rw [if_neg (by simp [hn])]
        rw [lookup_append_none _ hn]
        simp [List.lookup_cons]
      exact capFold_lookup_some rest _ u _ hstep
    · have h2 : u ∈ rest := by
        rcases List.mem_cons.1 h with h1 | h1
        · exact absurd h1 hu
        · exact h1
      refine ih _ u ?_ h2
      unfold capStep
      split
      · exact hn
      · rw [lookup_append_none _ hn, List.lookup_cons]
        have hbeq : (u == a) = false := by simp [hu]
        simp [hbeq]

/-! Lemmas about the row stream of the distance query. -/

theorem distanceRows_keys (t : FollowTable) (V : ℤ) (others : List ℤ) :
    (distanceRows t V others).map Prod.fst =
      (follows1 t V).filter (fun u => decide (u ∈ others)) ++
      (follows2 t V).filter (fun u => decide (u ∈ others)) ++
      (follows3 t V).filter (fun u => decide (u ∈ others)) ++
      (follows4 t V).filter (fun u => decide (u ∈ others)) := by
  unfold distanceRows
  simp [List.map_map, Function.comp_def]

theorem distanceRows_keys_nodup (t : FollowTable) (V : ℤ) (others : List ℤ)
    (h : (edgeKeys t).Nodup) :
    ((distanceRows t V others).map Prod.fst).Nodup := by
  rw [distanceRows_keys]
  have n1 := (follows1_nodup t V h).filter (fun u => decide (u ∈ others))
  have n2 := (follows2_nodup t V).filter (fun u => decide (u ∈ others))
  have n3 := (follows3_nodup t V).filter (fun u => decide (u ∈ others))
  have n4 := (follows4_nodup t V).filter (fun u => decide (u ∈ others))
  rw [List.nodup_append]
  refine ⟨?_, n4, ?_⟩
  · rw [List.nodup_append]
    refine ⟨?_, n3, ?_⟩
    · rw [List.nodup_append]
      refine ⟨n1, n2, ?_⟩
      intro x hx hx2
      exact (follows2_excl (List.mem_of_mem_filter hx2)).1 (List.mem_of_mem_filter hx)
    · intro x hx hx3
      have h3 := follows3_excl (List.mem_of_mem_filter hx3)
      rcases List.mem_append.1 hx with hx1 | hx2
      · exact h3.1 (List.mem_of_mem_filter hx1)
      · exact h3.2.1 (List.mem_of_mem_filter hx2)
  · intro x hx hx4
    have h4 := follows4_excl (List.mem_of_mem_filter hx4)
    rcases List.mem_append.1 hx with hx | hx3
    · rcases List.mem_append.1 hx with hx1 | hx2
      · exact h4.1 (List.mem_of_mem_filter hx1)
      · exact h4.2.1 (List.mem_of_mem_filter hx2)
    · exact h4.2.2.1 (List.mem_of_mem_filter hx3)

/-- With the primary key in force, the duplicate-id error branch is
unreachable and the oracle returns the capped fold over the collected rows. -/
theorem getDistance_ok_of_nodup (t : FollowTable) (V : ℤ) (others : List ℤ)
    (h : (edgeKeys t).Nodup) :
    GetDistanceFromUser t V others =
      Except.ok (others.foldl capStep (distanceRows t V others)) := by
  unfold GetDistanceFromUser
  rw [collectRows_ok_of_nodup _ [] (by simpa using distanceRows_keys_nodup t V others h)]
  simp

/-- The multiplicity of a target in the hop-1 frontier equals the number of
`(V, T)` rows in the table. -/
theorem follows1_count (t : FollowTable) (V T : ℤ) :
    (follows1 t V).count T = (edgeKeys t).count (V, T) := by
  induction t with
  | nil => simp [follows1, edgeKeys]
  | cons e rest ih =>
    unfold follows1 edgeKeys at ih ⊢
    rw [List.filter_cons, List.map_cons, List.count_cons]
    by_cases h : e.userId = V
    · rw [if_pos (by simpa using h), List.map_cons, List.count_cons, ih]
      by_cases h2 : e.followedUserId = T
      · simp [Prod.ext_iff, h, h2]
      · simp [Prod.ext_iff, h, h2]
    · rw [if_neg (by simpa using h), ih]
      simp [Prod.ext_iff, h]

theorem filter_mem_singleton (l : List ℤ) (T : ℤ) :
    l.filter (fun u => decide (u ∈ [T])) = List.replicate (l.count T) T := by
  induction l with
  | nil => simp
  | cons a rest ih =>
    rw [List.filter_cons, List.count_cons]
    by_cases h : a = T
    · subst h
      rw [if_pos (by simp), ih]
      simp [List.replicate_succ]
    · rw [if_neg (by simp [h]), ih]
      simp [h]

end Entropy

/-! Claim theorems for the distance oracle. -/

namespace Entropy

/-- C1: (a) a target connected to the viewer by exactly one forward edge is
returned at distance 1; (b) a target with no forward path of length at most 4
is returned at the capped `MaxDistortionLevel`; (c) in the graph
Max(1) follows Luna(2), Luna follows Bird(3), Stranger(4) isolated, the oracle
returns Luna at 1, Bird at 2 and Stranger at 5. -/
theorem getDistanceFromUser_distance_spec :
    (∀ (t : FollowTable) (V T : ℤ), (edgeKeys t).count (V, T) = 1 →
      GetDistanceFromUser t V [T] = Except.ok [(T, 1)]) ∧
    (∀ (t : FollowTable) (V T : ℤ),
      T ∉ reach t V 1 → T ∉ reach t V 2 → T ∉ reach t V 3 → T ∉ reach t V 4 →
      GetDistanceFromUser t V [T] = Except.ok [(T, MaxDistortionLevel)]) ∧
    GetDistanceFromUser [⟨1, 2, 10⟩, ⟨2, 3, 11⟩] 1 [2, 3, 4] =
      Except.ok [(2, 1), (3, 2), (4, MaxDistortionLevel)] := by
  refine ⟨?_, ?_, by rfl⟩
  · intro t V T hcount
    have hT1 : T ∈ follows1 t V := by
      rw [← List.count_pos_iff, follows1_count, hcount]
      norm_num
    have hA1 : (follows1 t V).filter (fun u => decide (u ∈ [T])) = [T] := by
      rw [filter_mem_singleton, follows1_count, hcount, List.replicate_one]
    have hA2 : (follows2 t V).filter (fun u => decide (u ∈ [T])) = [] := by
      rw [List.filter_eq_nil_iff]
      intro u hu
      simp only [List.mem_singleton, decide_eq_true_eq]
      intro h
      exact (follows2_excl (h ▸ hu)).1 hT1
    have hA3 : (follows3 t V).filter (fun u => decide (u ∈ [T])) = [] := by
      rw [List.filter_eq_nil_iff]
      intro u hu
      simp only [List.mem_singleton, decide_eq_true_eq]
      intro h
      exact (follows3_excl (h ▸ hu)).1 hT1
    have hA4 : (follows4 t V).filter (fun u => decide (u ∈ [T])) = [] := by
      rw [List.filter_eq_nil_iff]
      intro u hu
      simp only [List.mem_singleton, decide_eq_true_eq]
      intro h
      exact (follows4_excl (h ▸ hu)).1 hT1
    have hrows : distanceRows t V [T] = [(T, 1)] := by
      unfold distanceRows
      rw [hA1, hA2, hA3, hA4]
      simp
    unfold GetDistanceFromUser
    rw [hrows]
    rw [show collectRows [] [(T, 1)] = Except.ok [(T, 1)] by
      rw [collectRows, if_neg (by simp), collectRows, List.nil_append]]
    show Except.ok (List.foldl capStep [(T, 1)] [T]) = _
    rw [List.foldl_cons, List.foldl_nil, capStep,
      if_pos (by simp [List.lookup_cons])]
  · intro t V T h1 h2 h3 h4
    have hA1 : (follows1 t V).filter (fun u => decide (u ∈ [T])) = [] := by
      rw [List.filter_eq_nil_iff]
      intro u hu
      simp only [List.mem_singleton, decide_eq_true_eq]
      intro h
      exact h1 (follows1_subset_reach t V (h ▸ hu))
    have hA2 : (follows2 t V).filter (fun u => decide (u ∈ [T])) = [] := by
      rw [List.filter_eq_nil_iff]
      intro u hu
      simp only [List.mem_singleton, decide_eq_true_eq]
      intro h
      exact h2 (follows2_subset_reach t V (h ▸ hu))
    have hA3 : (follows3 t V).filter (fun u => decide (u ∈ [T])) = [] := by
      rw [List.filter_eq_nil_iff]
      intro u hu
      simp only [List.mem_singleton, decide_eq_true_eq]
      intro h
      exact h3 (follows3_subset_reach t V (h ▸ hu))
    have hA4 : (follows4 t V).filter (fun u => decide (u ∈ [T])) = [] := by
      rw [List.filter_eq_nil_iff]
      intro u hu
      simp only [List.mem_singleton, decide_eq_true_eq]
      intro h
      exact h4 (follows4_subset_reach t V (h ▸ hu))
    have hrows : distanceRows t V [T] = [] := by
      unfold distanceRows
      rw [hA1, hA2, hA3, hA4]
      simp
    unfold GetDistanceFromUser
    rw [hrows, collectRows]
    show Except.ok (List.foldl capStep [] [T]) = _
    rw [List.foldl_cons, List.foldl_nil, capStep, if_neg (by simp)]
    rfl

/-- Witness for `getDistanceFromUser_distance_spec` at concrete graphs. -/
theorem getDistanceFromUser_distance_spec_witness :
    GetDistanceFromUser [⟨1, 2, 0⟩] 1 [2] = Except.ok [(2, 1)] ∧
    GetDistanceFromUser [⟨1, 2, 0⟩] 1 [9] = Except.ok [(9, MaxDistortionLevel)] :=
  ⟨getDistanceFromUser_distance_spec.1 [⟨1, 2, 0⟩] 1 2 (by decide),
   getDistanceFromUser_distance_spec.2.1 [⟨1, 2, 0⟩] 1 9
     (by decide) (by decide) (by decide) (by decide)⟩

/-- C8: a duplicated id in the row stream surfaces as an error from the
collecting fold rather than overwriting; and under the primary key on the
follow table (whose cumulative cross-round exclusions keep the four hop
frontiers disjoint) the oracle always succeeds and returns every requested
target exactly once among its keys. -/
theorem getDistanceFromUser_unique_spec :
    (∀ rows : List (ℤ × Nat), ¬ (rows.map Prod.fst).Nodup →
      ∃ e, collectRows [] rows = Except.error e) ∧
    (∀ (t : FollowTable) (V : ℤ) (targets : List ℤ), (edgeKeys t).Nodup →
      ∃ m, GetDistanceFromUser t V targets = Except.ok m ∧
        ∀ u ∈ targets, (m.map Prod.fst).count u = 1) := by
  constructor
  · intro rows h
    exact collectRows_error_of_dup rows [] (by simp) (by simpa using h)
  · intro t V targets h
    refine ⟨targets.foldl capStep (distanceRows t V targets),
      getDistance_ok_of_nodup t V targets h, ?_⟩
    intro u hu
    have hn := capFold_keys_nodup targets (distanceRows t V targets)
      (distanceRows_keys_nodup t V targets h)
    have hm := capFold_mem_keys targets (distanceRows t V targets) u hu
    exact List.count_eq_one_of_mem hn hm

/-- Witness for `getDistanceFromUser_unique_spec` at concrete inputs. -/
theorem getDistanceFromUser_unique_spec_witness :
    (∃ e, collectRows [] [((4 : ℤ), 1), ((4 : ℤ), 2)] = Except.error e) ∧
    ∃ m, GetDistanceFromUser [⟨1, 2, 0⟩] 1 [2, 9] = Except.ok m ∧
      ∀ u ∈ [(2 : ℤ), 9], (m.map Prod.fst).count u = 1 :=
  ⟨getDistanceFromUser_unique_spec.1 [(4, 1), (4, 2)] (by simp),
   getDistanceFromUser_unique_spec.2 [⟨1, 2, 0⟩] 1 [2, 9] (by decide)⟩

theorem distanceRows_nil (t : FollowTable) (V : ℤ) : distanceRows t V [] = [] := by
  unfold distanceRows
  simp [List.filter_eq_nil_iff]

/-- C9 counterexample: with an empty target list the function still executes
its one store query (there is no early return before `exec` in the source),
so the query count is 1, not 0; the result is nevertheless the empty map. -/
theorem getDistance_empty_counterexample :
    (GetDistanceFromUserTraced [] 0 []).1 = Except.ok [] ∧
    (GetDistanceFromUserTraced [] 0 []).2 ≠ 0 :=
  ⟨rfl, by decide⟩

/-- C9 amended: an empty target list yields an empty map, but the single
distance query is still executed against the store (with an empty id array),
returning no rows. -/
theorem getDistance_empty_targets (t : FollowTable) (V : ℤ) :
    GetDistanceFromUser t V [] = Except.ok [] ∧
    (GetDistanceFromUserTraced t V []).2 = 1 := by
  constructor
  · unfold GetDistanceFromUser
    rw [distanceRows_nil, collectRows]
    rfl
  · rfl

/-- C10 counterexample: the hop-1 frontier has no viewer exclusion (only hops
2-4 carry the `!= :userID` clause), so on a table holding the self-edge
`(7, 7)` (which the schema permits; only `FollowUser` refuses to create one)
the viewer is returned at distance 1, not at the capped `MaxDistortionLevel`. -/
theorem getDistance_viewer_counterexample :
    GetDistanceFromUser [⟨7, 7, 0⟩] 7 [7] = Except.ok [(7, 1)] ∧
    (1 : Nat) ≠ MaxDistortionLevel :=
  ⟨rfl, by decide⟩

/-- C10 amended: on a table without self-edges (the invariant `FollowUser`
maintains), a viewer id among the targets is never produced by hops 1-4 (hop 1
because a row for it would be a self-edge, hops 2-4 by their explicit viewer
exclusion) and is assigned the capped `MaxDistortionLevel` by the final loop. -/
theorem getDistance_viewer_capped (t : FollowTable) (V : ℤ) (targets : List ℤ)
    (m : List (ℤ × Nat)) (hself : ∀ e ∈ t, e.userId ≠ e.followedUserId)
    (hmem : V ∈ targets) (h : GetDistanceFromUser t V targets = Except.ok m) :
    m.lookup V = some MaxDistortionLevel := by
  have hkeys : V ∉ (distanceRows t V targets).map Prod.fst := by
    rw [distanceRows_keys]
    intro hV
    rcases List.mem_append.1 hV with hV123 | hV4
    · rcases List.mem_append.1 hV123 with hV12 | hV3
      · rcases List.mem_append.1 hV12 with hV1 | hV2
        · have hmem1 := List.mem_of_mem_filter hV1
          unfold follows1 at hmem1
          obtain ⟨e, he, heq⟩ := List.mem_map.1 hmem1
          have heV : e.userId = V := by simpa using (List.mem_filter.1 he).2
          exact hself e (List.mem_of_mem_filter he) (by rw [heV, heq])
        · exact (follows2_excl (List.mem_of_mem_filter hV2)).2 rfl
      · exact (follows3_excl (List.mem_of_mem_filter hV3)).2.2 rfl
    · exact (follows4_excl (List.mem_of_mem_filter hV4)).2.2.2 rfl
  unfold GetDistanceFromUser at h
  cases hc : collectRows [] (distanceRows t V targets) with
  | error e =>
    rw [hc] at h
    exact absurd h (by simp)
  | ok m0 =>
    rw [hc] at h
    injection h with h
    have hm0 : m0 = distanceRows t V targets := by
      simpa using collectRows_ok_eq _ [] m0 hc
    subst h
    exact capFold_lookup_cap targets m0 V
      (lookup_eq_none_of_not_mem (hm0 ▸ hkeys)) hmem

/-- Witness for `getDistance_viewer_capped` at a concrete graph. -/
theorem getDistance_viewer_capped_witness :
    List.lookup (1 : ℤ) [((2 : ℤ), 1), ((1 : ℤ), MaxDistortionLevel)] =
      some MaxDistortionLevel :=
  getDistance_viewer_capped [⟨1, 2, 10⟩] 1 [2, 1] [(2, 1), (1, MaxDistortionLevel)]
    (by decide) (by decide) (by rfl)

/-! Theorems for the decorator and the feed composer. -/

theorem postLeDesc_trans (a b c : Post) :
    postLeDesc a b = true → postLeDesc b c = true → postLeDesc a c = true := by
  intro h1 h2
  simp only [postLeDesc, decide_eq_true_eq] at h1 h2 ⊢
  omega

theorem postLeDesc_total (a b : Post) : (postLeDesc a b || postLeDesc b a) = true := by
  simp only [postLeDesc, Bool.or_eq_true, decide_eq_true_eq]
  omega

/-- Sorting with `postLeDesc` yields a list ordered by `createdAt` descending. -/
theorem mergeSort_sorted_desc (l : List Post) :
    List.Pairwise (fun a b : Post => b.createdAt ≤ a.createdAt)
      (l.mergeSort postLeDesc) := by
  have h := List.sorted_mergeSort postLeDesc_trans postLeDesc_total l
  refine h.imp ?_
  intro a b hab
  simpa [postLeDesc] using hab

/-- The anonymous feed: at most `limit` posts, ordered by `createdAt`
descending. -/
theorem getRecentPosts_spec (postTable : List Post) (before : ℤ) (limit : Nat) :
    (GetRecentPosts postTable before limit).length ≤ limit ∧
    List.Pairwise (fun a b : Post => b.createdAt ≤ a.createdAt)
      (GetRecentPosts postTable before limit) := by
  unfold GetRecentPosts
  exact ⟨List.length_take_le _ _,
    List.Pairwise.sublist (List.take_sublist _ _) (mergeSort_sorted_desc _)⟩

/-- The draw loop adds at most one post per round. -/
theorem drawLoop_length (draw : Nat → ℚ) :
    ∀ (n : Nat) (acc fs cs : List Post),
      (drawLoop draw n acc fs cs).length ≤ acc.length + n := by
  intro n
  induction n with
  | zero =>
    intro acc fs cs
    rw [drawLoop]
    omega
  | succ k ih =>
    intro acc fs cs
    cases fs with
    | nil =>
      cases cs with
      | nil =>
        rw [drawLoop]
        omega
      | cons c cs2 =>
        rw [drawLoop]
        have := ih (acc ++ [c]) [] cs2
        simp only [List.length_append, List.length_cons, List.length_nil] at this ⊢
        omega
    | cons f fs2 =>
      cases cs with
      | nil =>
        rw [drawLoop]
        have := ih (acc ++ [f]) fs2 []
        simp only [List.length_append, List.length_cons, List.length_nil] at this ⊢
        omega
      | cons c cs2 =>
        rw [drawLoop]
        split
        · have := ih (acc ++ [f]) fs2 (c :: cs2)
          simp only [List.length_append, List.length_cons, List.length_nil] at this ⊢
          omega
        · have := ih (acc ++ [c]) (f :: fs2) cs2
          simp only [List.length_append, List.length_cons, List.length_nil] at this ⊢
          omega

/-- The logged-in feed before decoration: at most `limit` posts, ordered by
`createdAt` descending. -/
theorem getPostsForLoggedInUser_spec (draw : Nat → ℚ) (ft : FollowTable)
    (postTable : List Post) (uid : ℤ) (before : ℤ) (limit : Nat) :
    (getPostsForLoggedInUser draw ft postTable uid before limit).length ≤ limit ∧
    List.Pairwise (fun a b : Post => b.createdAt ≤ a.createdAt)
      (getPostsForLoggedInUser draw ft postTable uid before limit) := by
  unfold getPostsForLoggedInUser
  constructor
  · rw [(List.mergeSort_perm _ _).length_eq]
    have := drawLoop_length draw limit []
      (GetRecentPostsFromFollowedUsers ft postTable uid before limit)
      (GetRecentPostsFromRandos ft postTable uid before limit)
    simpa using this
  · exact mergeSort_sorted_desc _

theorem map_enumFrom_createdAt (f : Nat × Post → Post)
    (hf : ∀ x, (f x).createdAt = x.2.createdAt) :
    ∀ (l : List Post) (k : Nat),
      ((List.enumFrom k l).map f).map (fun p => p.createdAt) =
        l.map (fun p => p.createdAt) := by
  intro l
  induction l with
  | nil => intro k; simp
  | cons p rest ih =>
    intro k
    rw [List.enumFrom_cons, List.map_cons, List.map_cons, List.map_cons, hf, ih]

/-- Distortion rewrites only the content and distortion level of each post:
the creation times, in order, are untouched, and so is the batch length. -/
theorem distortPostsForUser_shape (floats : Nat → Nat → ℚ) (ints : Nat → Nat → Nat)
    (ft : FollowTable) (user : Option ℤ) (posts m : List Post)
    (hm : distortPostsForUser floats ints ft user posts = Except.ok m) :
    m.length = posts.length ∧
    m.map (fun p => p.createdAt) = posts.map (fun p => p.createdAt) := by
  cases user with
  | none =>
    simp only [distortPostsForUser] at hm
    injection hm with hm
    subst hm
    constructor
    · simp [List.enum_length]
    · refine map_enumFrom_createdAt _ ?_ posts 0
      intro x
      rfl
  | some uid =>
    simp only [distortPostsForUser] at hm
    cases hq : GetDistanceFromUser ft uid
        (((posts.filter (fun p => p.userId != uid)).map (fun p => p.userId)).dedup) with
    | error e =>
      rw [hq] at hm
      exact absurd hm (by simp)
    | ok distances =>
      rw [hq] at hm
      injection hm with hm
      subst hm
      constructor
      · simp [List.enum_length]
      · refine map_enumFrom_createdAt _ ?_ posts 0
        intro x
        by_cases hc : (x.2.userId == uid) = true
        · simp [hc]
        · simp [hc]

/-- Decoration never drops, duplicates or reorders posts, and leaves every
creation time in place. -/
theorem decoratePosts_shape (floats : Nat → Nat → ℚ) (ints : Nat → Nat → Nat)
    (ft : FollowTable) (user : Option ℤ) (posts m : List Post)
    (hm : DecoratePosts floats ints ft user posts = Except.ok m) :
    m.length = posts.length ∧
    m.map (fun p => p.createdAt) = posts.map (fun p => p.createdAt) := by
  unfold DecoratePosts at hm
  split at hm
  · injection hm with hm
    subst hm
    exact ⟨rfl, rfl⟩
  · exact distortPostsForUser_shape floats ints ft user posts m hm

theorem pairwise_of_map_createdAt {l m : List Post}
    (heq : m.map (fun p => p.createdAt) = l.map (fun p => p.createdAt))
    (h : List.Pairwise (fun a b : Post => b.createdAt ≤ a.createdAt) l) :
    List.Pairwise (fun a b : Post => b.createdAt ≤ a.createdAt) m := by
  have h2 : List.Pairwise (fun x y : ℤ => y ≤ x)
      (l.map (fun p => p.createdAt)) := List.pairwise_map.2 h
  rw [← heq] at h2
  exact List.pairwise_map.1 h2

/-- C5: for every viewer (anonymous or logged in), every cursor and every
limit, the recommended feed holds at most `limit` posts and is ordered by
`createdAt` descending. -/
theorem getRecommendedPosts_spec (draw : Nat → ℚ) (floats : Nat → Nat → ℚ)
    (ints : Nat → Nat → Nat) (ft : FollowTable) (postTable : List Post)
    (user : Option ℤ) (before : ℤ) (limit : Nat) (m : List Post)
    (hm : GetRecommendedPosts draw floats ints ft postTable user before limit =
      Except.ok m) :
    m.length ≤ limit ∧
    List.Pairwise (fun a b : Post => b.createdAt ≤ a.createdAt) m := by
  unfold GetRecommendedPosts at hm
  cases user with
  | none =>
    obtain ⟨hlen, hmap⟩ := decoratePosts_shape _ _ _ _ _ _ hm
    obtain ⟨hlen2, hsorted⟩ := getRecentPosts_spec postTable before limit
    exact ⟨by rw [hlen]; exact hlen2, pairwise_of_map_createdAt hmap hsorted⟩
  | some uid =>
    obtain ⟨hlen, hmap⟩ := decoratePosts_shape _ _ _ _ _ _ hm
    obtain ⟨hlen2, hsorted⟩ := getPostsForLoggedInUser_spec draw ft postTable uid before limit
    exact ⟨by rw [hlen]; exact hlen2, pairwise_of_map_createdAt hmap hsorted⟩

/-- Witness for `getRecommendedPosts_spec` on an empty store. -/
theorem getRecommendedPosts_spec_witness :
    ([] : List Post).length ≤ 5 ∧
    List.Pairwise (fun a b : Post => b.createdAt ≤ a.createdAt) ([] : List Post) :=
  getRecommendedPosts_spec (fun _ => 0) (fun _ _ => 0) (fun _ _ => 0) [] [] none 0 5 []
    (by simp [GetRecommendedPosts, GetRecentPosts, DecoratePosts])

/-- C6: for a logged-in viewer, decoration never touches the content (or any
other field) of a post authored by the viewer, whatever the follow graph and
the random draws. -/
theorem distortPostsForUser_self_unchanged (floats : Nat → Nat → ℚ)
    (ints : Nat → Nat → Nat) (ft : FollowTable) (uid : ℤ) (posts m : List Post)
    (hm : distortPostsForUser floats ints ft (some uid) posts = Except.ok m) :
    m.length = posts.length ∧
    ∀ (i : Nat) (hi : i < posts.length) (hi2 : i < m.length),
      (posts.get ⟨i, hi⟩).userId = uid → m.get ⟨i, hi2⟩ = posts.get ⟨i, hi⟩ := by
  have hlen := (distortPostsForUser_shape floats ints ft (some uid) posts m hm).1
  refine ⟨hlen, ?_⟩
  simp only [distortPostsForUser] at hm
  cases hq : GetDistanceFromUser ft uid
      (((posts.filter (fun p => p.userId != uid)).map (fun p => p.userId)).dedup) with
  | error e =>
    rw [hq] at hm
    exact absurd hm (by simp)
  | ok distances =>
    rw [hq] at hm
    injection hm with hm
    subst hm
    intro i hi hi2 hown
    rw [List.get_eq_getElem] at hown
    rw [List.get_eq_getElem, List.get_eq_getElem]
    rw [List.getElem_map]
    rw [List.getElem_enum]
    simp [hown]

/-- Witness for `distortPostsForUser_self_unchanged` at a concrete batch. -/
theorem distortPostsForUser_self_unchanged_witness :
    (distortPostsForUser (fun _ _ => 0) (fun _ _ => 0) [] (some 7)
      [⟨1, 7, 100, [65, 66], 0⟩] = Except.ok [⟨1, 7, 100, [65, 66], 0⟩]) ∧
    ([⟨1, 7, 100, [65, 66], 0⟩] : List Post).get ⟨0, Nat.zero_lt_one⟩ =
      ([⟨1, 7, 100, [65, 66], 0⟩] : List Post).get ⟨0, Nat.zero_lt_one⟩ :=
  ⟨rfl,
   (distortPostsForUser_self_unchanged (fun _ _ => 0) (fun _ _ => 0) [] 7
      [⟨1, 7, 100, [65, 66], 0⟩] [⟨1, 7, 100, [65, 66], 0⟩] rfl).2 0
      Nat.zero_lt_one Nat.zero_lt_one rfl⟩

end Entropy
